import Mathlib

/-!
Verification of the TCaptcha solver core: a shallow embedding of the
instruction parser, shape duplicate-suppression (NMS), the prediction
engine, the rectangularity gate and the per-image analysis orchestrator,
together with theorems settling the specification claims.

Strings are modelled as `List Char` (the JavaScript string operations
`split`, `trim`, `toLowerCase`, `includes`, regex scans are re-implemented
faithfully on character lists).  JavaScript numbers appearing in the
duplicate-suppression geometry are modelled as integers under an exact
common scaling, with the overlap factor as an exact fraction; the angle
gate uses `ℚ` degrees; counts are `ℕ`.  External collaborators (the
browser DOM parser, the OpenCV backend) enter as explicit inputs:
a parsed DOM tree, respectively abstract pipeline outcomes in `Except`.
-/

namespace CaptchaCore

/-! ## Character-list string primitives (JavaScript string semantics) -/

/-- Whitespace class used by JavaScript `\s` and `trim` (ASCII part:
space, tab, newline, carriage return, vertical tab, form feed). -/
def isWsChar (c : Char) : Bool :=
  c == ' ' || c == '\t' || c == '\n' || c == '\r' || c == '\x0b' || c == '\x0c'

/-- JavaScript `String.prototype.toLowerCase` (ASCII range). -/
def toLowerL (l : List Char) : List Char := l.map Char.toLower

/-- JavaScript `String.prototype.trim`: strip leading and trailing whitespace. -/
def trimL (l : List Char) : List Char :=
  ((l.dropWhile isWsChar).reverse.dropWhile isWsChar).reverse

/-- JavaScript `String.prototype.split` with a single-character separator:
`"a;;b".split(';') = ["a","","b"]`, `"".split(';') = [""]`. -/
def splitOnCharL (sep : Char) : List Char → List (List Char)
  | [] => [[]]
  | c :: cs =>
    match splitOnCharL sep cs with
    | [] => [[]]
    | r :: rs => if c == sep then [] :: r :: rs else (c :: r) :: rs

/-- Does `needle` occur at the very start of `hay`? -/
def startsWithL : List Char → List Char → Bool
  | [], _ => true
  | _ :: _, [] => false
  | a :: as, b :: bs => a == b && startsWithL as bs

/-- JavaScript `String.prototype.includes`: substring occurrence. -/
def containsSubL (hay needle : List Char) : Bool :=
  startsWithL needle hay ||
    match hay with
    | [] => false
    | _ :: t => containsSubL t needle

/-- One pass of the regex replacement `replace(/\s+/g, ' ')`: each maximal
whitespace run becomes a single space.  The flag records whether the
previous character was part of a whitespace run already replaced. -/
def collapseWsGo : Bool → List Char → List Char
  | _, [] => []
  | prevWs, c :: cs =>
    if isWsChar c then
      if prevWs then collapseWsGo true cs else ' ' :: collapseWsGo true cs
    else c :: collapseWsGo false cs

/-- Text normalisation used by both parser variants:
`.toLowerCase().replace(/\s+/g, ' ').trim()`. -/
def normalizeL (l : List Char) : List Char :=
  trimL (collapseWsGo false (toLowerL l))

example : normalizeL "  Exactly   9  Boxes ".data = "exactly 9 boxes".data := by decide

/-! ## DOM model and the two hidden-style detectors

The `DOMParser` itself is a browser collaborator; the instruction parsers
operate on the resulting node tree, modelled here as `DomTree`.  Element
nodes carry their `style` attribute string (absent attribute = `""`, as
`getAttribute(...) || ''` yields). -/

mutual
/-- A parsed DOM node: an element with a `style` attribute and children,
or a text node. -/
inductive DomTree where
  | elem (style : List Char) (children : DomForest)
  | text (s : List Char)
/-- A sequence of sibling DOM nodes (the body's children, or an
element's children). -/
inductive DomForest where
  | nil
  | cons (n : DomTree) (f : DomForest)
end

/-- Hidden-style test of `LogicParser.parse` (src/unnamed/part_000,
lines 386-391): split the inline style on `;`, split each declaration on
`:`, trim and lowercase the parts, and test the property/value pair for
exactly `display:none` or `visibility:hidden`.  A declaration with no `:`
leaves the value undefined, so it never matches. -/
def isHiddenV1 (style : List Char) : Bool :=
  (splitOnCharL ';' style).any fun rule =>
    match (splitOnCharL ':' rule).map (fun part => toLowerL (trimL part)) with
    | p :: v :: _ =>
        (p == "display".data && v == "none".data) ||
        (p == "visibility".data && v == "hidden".data)
    | _ => false

/-- Hidden-style test of `InstructionParser.parse` (src/60%slop.user.js,
lines 194-197): strip all whitespace from the inline style, then test for
the substrings `opacity:0`, `visibility:hidden`, or `display:none` — the
last one suppressed whenever the substring `nnone` occurs. -/
def isHiddenV2 (style : List Char) : Bool :=
  let s := style.filter fun c => !isWsChar c
  containsSubL s "opacity:0".data ||
  containsSubL s "visibility:hidden".data ||
  (containsSubL s "display:none".data && !containsSubL s "nnone".data)

/-- Concatenation of two sibling sequences. -/
def appendForest : DomForest → DomForest → DomForest
  | .nil, g => g
  | .cons n f, g => .cons n (appendForest f g)

mutual
/-- Removal of hidden elements (`doc.querySelectorAll('*')` + `remove()`)
at a single node: an element whose style satisfies `hidden` is removed
together with its subtree; text nodes are kept. -/
def pruneTree (hidden : List Char → Bool) : DomTree → DomForest
  | .text s => .cons (.text s) .nil
  | .elem st ch =>
    if hidden st then .nil else .cons (.elem st (pruneTrees hidden ch)) .nil
/-- Removal of hidden elements across a sibling sequence. -/
def pruneTrees (hidden : List Char → Bool) : DomForest → DomForest
  | .nil => .nil
  | .cons n f => appendForest (pruneTree hidden n) (pruneTrees hidden f)
end

mutual
/-- `textContent` of one node: concatenation of all its text in order. -/
def textTree : DomTree → List Char
  | .text s => s
  | .elem _ ch => textTrees ch
/-- `textContent` across a sibling sequence. -/
def textTrees : DomForest → List Char
  | .nil => []
  | .cons n f => textTree n ++ textTrees f
end

mutual
/-- Characterisation used to state what removal achieves: the text of a
node contributes exactly when no ancestor (the node itself included) is
hidden. -/
def visibleTree (hidden : List Char → Bool) : DomTree → List Char
  | .text s => s
  | .elem st ch => if hidden st then [] else visibleTrees hidden ch
/-- Visible text across a sibling sequence. -/
def visibleTrees (hidden : List Char → Bool) : DomForest → List Char
  | .nil => []
  | .cons n f => visibleTree hidden n ++ visibleTrees hidden f
end

/-- Normalised visible text of `LogicParser.parse` (src/unnamed/part_000,
lines 384-402): remove hidden elements, take `textContent`, lowercase,
collapse whitespace, trim. -/
def parseVisibleTextV1 (ns : DomForest) : List Char :=
  normalizeL (textTrees (pruneTrees isHiddenV1 ns))

example : parseVisibleTextV1
    (.cons (.elem "display:none".data (.cons (.text "exactly 9".data) .nil))
      (.cons (.text " pick the Highest  number ".data) .nil)) =
    "pick the highest number".data := by decide

/-! ## Rule classification and target extraction

The two source variants genuinely differ here and are embedded
separately: `InstructionParser.parse` (src/60%slop.user.js,
lines 218-224) runs the full `MAX`/`EXACT`/`OUTLIER` keyword cascade,
while `LogicParser.parse` (src/unnamed/part_000, lines 404-414) triggers
`MAX` only on the literal `highest number`, has no `most`/`maximum`
triggers, and has no `OUTLIER` category at all. -/

/-- The rule kinds produced by the instruction parsers. -/
inductive RuleType where
  | MAX
  | EXACT
  | OUTLIER
  | UNKNOWN
deriving DecidableEq

/-- Classification cascade of `InstructionParser.parse` over the
normalised visible text (src/60%slop.user.js, lines 218-224): first
match wins. -/
def classifyText (t : List Char) : RuleType :=
  if containsSubL t "highest".data || containsSubL t "most".data ||
      containsSubL t "maximum".data then .MAX
  else if containsSubL t "exactly".data then .EXACT
  else if containsSubL t "pair".data || containsSubL t "not like the others".data ||
      containsSubL t "odd one out".data then .OUTLIER
  else .UNKNOWN

/-- Classification cascade of `LogicParser.parse` over the normalised
visible text (src/unnamed/part_000, lines 404-414): only the literal
`highest number` yields `MAX`, otherwise `exactly` yields `EXACT`,
otherwise `UNKNOWN` — this variant never produces `OUTLIER`. -/
def classifyTextV1 (t : List Char) : RuleType :=
  if containsSubL t "highest number".data then .MAX
  else if containsSubL t "exactly".data then .EXACT
  else .UNKNOWN

/-- One digit of a decimal numeral. -/
def digitVal (c : Char) : Nat := c.toNat - '0'.toNat

/-- `parseInt(ds, 10)` on a nonempty digit string. -/
def parseDigits (ds : List Char) : Nat :=
  ds.foldl (fun n c => n * 10 + digitVal c) 0

/-- Attempt to match the regex `exactly\s*(\d+)` at the start of the
given suffix of the text: the literal `exactly`, optional whitespace,
then a maximal nonempty digit run (the captured group). -/
def tryExactlyAt (cs : List Char) : Option Nat :=
  if startsWithL "exactly".data cs then
    let rest := (cs.drop 7).dropWhile isWsChar
    let ds := rest.takeWhile Char.isDigit
    if ds.isEmpty then none else some (parseDigits ds)
  else none

/-- Attempt to match the regex `>\s*(\d+)\s*<` at the start of the given
suffix of the raw markup: a closing angle bracket, optional whitespace, a
maximal nonempty digit run, optional whitespace, an opening bracket. -/
def tryAngleAt (cs : List Char) : Option Nat :=
  match cs with
  | '>' :: rest =>
    let r1 := rest.dropWhile isWsChar
    let ds := r1.takeWhile Char.isDigit
    if ds.isEmpty then none
    else
      match (r1.drop ds.length).dropWhile isWsChar with
      | '<' :: _ => some (parseDigits ds)
      | _ => none
  | _ => none

/-- JavaScript regex search: try the pattern at every start position from
the left and return the first success (`String.prototype.match`). -/
def scanFirst (f : List Char → Option Nat) : List Char → Option Nat
  | [] => f []
  | c :: cs =>
    match f (c :: cs) with
    | some n => some n
    | none => scanFirst f cs

/-- Target extraction for an `EXACT` rule in `InstructionParser.parse`
(src/60%slop.user.js, lines 221-223):
`text.match(/exactly\s*(\d+)/) || html.match(/>\s*(\d+)\s*</)`, then
`parseInt` of the captured group; `target` stays `0` when neither regex
matches. -/
def extractTarget (text html : List Char) : Nat :=
  match scanFirst tryExactlyAt text with
  | some n => n
  | none =>
    match scanFirst tryAngleAt html with
    | some n => n
    | none => 0

/-- Target extraction for an `EXACT` rule in `LogicParser.parse`
(src/unnamed/part_000, lines 411-413):
`const match = text.match(/exactly\s*(\d+)/); target = match ?
parseInt(match[1], 10) : 0` — this variant never looks at the raw
markup. -/
def extractTargetV1 (text : List Char) : Nat :=
  match scanFirst tryExactlyAt text with
  | some n => n
  | none => 0

example : extractTarget "pick exactly 12 boxes".data "".data = 12 := by decide
example : extractTarget "pick exactly dots".data "<b> 7 </b>".data = 7 := by decide
example : extractTargetV1 "pick exactly dots".data = 0 := by decide
example : classifyText "the highest number of exactly 3".data = .MAX := by decide
example : classifyTextV1 "the most marks".data = .UNKNOWN := by decide

/-! ## Duplicate suppression (`ComputerVision.applyNMS`,
src/unnamed/part_000 lines 305-317)

A detected box carries its mass centroid, its extent (`width`, the larger
bounding-box dimension) and its contour area; the contour itself is only
consumed downstream by the mask renderer and plays no role here. -/

/-- A detected candidate box (`boxes.push({contour, centerX, centerY,
width, area})`, src/unnamed/part_000 lines 285-291).  The numeric fields
are modelled as integers (an exact common scaling of the source's finite
float values); the overlap factor is carried as an exact fraction
`oNum / oDen` (the configured `0.6` is `3 / 5`). -/
structure Box where
  cx : ℤ
  cy : ℤ
  width : ℤ
  area : ℤ
deriving DecidableEq

/-- Squared Euclidean distance between the centroids of two boxes
(`calculateDistance`, src/unnamed/part_000 lines 104-106, before the
square root). -/
def distSq (a b : Box) : ℤ := (a.cx - b.cx) ^ 2 + (a.cy - b.cy) ^ 2

/-- The suppression test `calculateDistance(box, otherBox) <
otherBox.width * overlapThreshold` of `applyNMS`, the overlap threshold
being the fraction `oNum / oDen` with `0 < oDen`.  Over the reals,
`√d < w·(oNum/oDen)  ↔  0 < w·oNum ∧ oDen²·d < (w·oNum)²`
(theorem `sqrt_lt_scaled` below), which renders the source's comparison
exactly in integers. -/
def suppresses (other box : Box) (oNum oDen : ℤ) : Bool :=
  decide (0 < other.width * oNum) &&
    decide (oDen ^ 2 * distSq box other < (other.width * oNum) ^ 2)

/-- Justification step for `suppresses`: the square-root comparison of
the source is equivalent to a sign test and a squared comparison. -/
theorem sqrt_lt_iff_sq (d t : ℝ) : Real.sqrt d < t ↔ 0 < t ∧ d < t ^ 2 := by
  constructor
  · intro h
    have ht : 0 < t := lt_of_le_of_lt (Real.sqrt_nonneg d) h
    refine ⟨ht, ?_⟩
    rcases le_or_lt d 0 with hd | hd
    · exact lt_of_le_of_lt hd (by positivity)
    · have hs := Real.sq_sqrt hd.le
      have h0 := Real.sqrt_nonneg d
      nlinarith
  · rintro ⟨ht, hd⟩
    rcases le_or_lt d 0 with hd0 | hd0
    · simpa [Real.sqrt_eq_zero_of_nonpos hd0] using ht
    · have h := Real.sqrt_lt_sqrt hd0.le hd
      simpa [Real.sqrt_sq ht.le] using h

/-- Justification for `suppresses`: with a positive denominator, the
real comparison `√d < w·(oNum/oDen)` is exactly the integer test
performed by `suppresses`. -/
theorem sqrt_lt_scaled (d w oNum oDen : ℤ) (hoD : 0 < oDen) :
    (Real.sqrt (d : ℝ) < (w : ℝ) * ((oNum : ℝ) / (oDen : ℝ)) ↔
      (0 < w * oNum ∧ oDen ^ 2 * d < (w * oNum) ^ 2)) := by
  have hoDR : (0 : ℝ) < (oDen : ℝ) := by exact_mod_cast hoD
  rw [sqrt_lt_iff_sq]
  constructor
  · rintro ⟨h1, h2⟩
    have hwn : (0 : ℝ) < (w : ℝ) * (oNum : ℝ) := by
      have := mul_pos h1 hoDR
      calc (0 : ℝ) < (w : ℝ) * ((oNum : ℝ) / (oDen : ℝ)) * (oDen : ℝ) := this
        _ = (w : ℝ) * (oNum : ℝ) := by field_simp
    have hsq : ((oDen : ℝ)) ^ 2 * (d : ℝ) < ((w : ℝ) * (oNum : ℝ)) ^ 2 := by
      have h3 := mul_lt_mul_of_pos_left h2 (show (0:ℝ) < (oDen:ℝ)^2 by positivity)
      calc ((oDen : ℝ)) ^ 2 * (d : ℝ) < (oDen : ℝ) ^ 2 * ((w : ℝ) * ((oNum : ℝ) / (oDen : ℝ))) ^ 2 := h3
        _ = ((w : ℝ) * (oNum : ℝ)) ^ 2 := by field_simp
    constructor
    · exact_mod_cast hwn
    · exact_mod_cast hsq
  · rintro ⟨h1, h2⟩
    have h1R : (0 : ℝ) < (w : ℝ) * (oNum : ℝ) := by exact_mod_cast h1
    have h2R : ((oDen : ℝ)) ^ 2 * (d : ℝ) < ((w : ℝ) * (oNum : ℝ)) ^ 2 := by exact_mod_cast h2
    constructor
    · have : (w : ℝ) * ((oNum : ℝ) / (oDen : ℝ)) = (w : ℝ) * (oNum : ℝ) / (oDen : ℝ) := by ring
      rw [this]
      positivity
    · have hD2 : (0 : ℝ) < (oDen : ℝ) ^ 2 := by positivity
      rw [show (w : ℝ) * ((oNum : ℝ) / (oDen : ℝ)) = (w : ℝ) * (oNum : ℝ) / (oDen : ℝ) by ring,
        div_pow, lt_div_iff₀ hD2]
      linarith [h2R]

/-- Stable insertion: `x` is placed before the first element `y` that
does not strictly precede it, so elements equivalent under `lt` keep
their original relative order, exactly as the ECMAScript stable
`Array.prototype.sort` mandates. -/
def insertSorted (lt : α → α → Bool) (x : α) : List α → List α
  | [] => [x]
  | y :: ys => if lt y x then y :: insertSorted lt x ys else x :: y :: ys

/-- Stable sort by the strict comparator `lt` (the unique stable order,
matching JavaScript's stable `sort`). -/
def stableSort (lt : α → α → Bool) : List α → List α
  | [] => []
  | x :: xs => insertSorted lt x (stableSort lt xs)

/-- Strict comparator of `boxes.sort((a, b) => b.area - a.area)`:
`a` precedes `b` when its area is strictly larger. -/
def areaLt (a b : Box) : Bool := decide (b.area < a.area)

/-- The area-descending sort performed at the start of `applyNMS`. -/
def sortAreaDesc : List Box → List Box := stableSort areaLt

/-- `ComputerVision.applyNMS` (src/unnamed/part_000 lines 305-317): sort
by area descending, then keep a box exactly when no box at an *earlier
position of the sorted array* (`boxes.slice(0, index)`, kept or not)
suppresses it. -/
def applyNMS (boxes : List Box) (oNum oDen : ℤ) : List Box :=
  let s := sortAreaDesc boxes
  (s.enum.filter fun p => !((s.take p.1).any fun k => suppresses k p.2 oNum oDen)).map
    Prod.snd

/-- Worker for `greedyKeptNMS`: walk the area-sorted list, keeping a box
exactly when no previously *kept* box suppresses it. -/
def greedyKeptGo (oNum oDen : ℤ) (kept : List Box) : List Box → List Box
  | [] => []
  | b :: bs =>
    if kept.all fun k => !suppresses k b oNum oDen then
      b :: greedyKeptGo oNum oDen (b :: kept) bs
    else greedyKeptGo oNum oDen kept bs

/-- Greedy NMS as the specification words it: a box is kept exactly when
every *already-kept* box is farther than its suppression bound.  Stated
only to be compared with `applyNMS`, which instead tests against every
earlier box of the sorted array, kept or discarded. -/
def greedyKeptNMS (oNum oDen : ℤ) (boxes : List Box) : List Box :=
  greedyKeptGo oNum oDen [] (sortAreaDesc boxes)

example : sortAreaDesc [⟨0,0,1,3⟩, ⟨1,0,1,7⟩, ⟨2,0,1,3⟩] =
    [⟨1,0,1,7⟩, ⟨0,0,1,3⟩, ⟨2,0,1,3⟩] := by decide

example : applyNMS [⟨0,0,10,100⟩, ⟨5,0,10,50⟩, ⟨10,0,10,25⟩] 3 5 =
    [⟨0,0,10,100⟩] := by decide

example : greedyKeptNMS 3 5 [⟨0,0,10,100⟩, ⟨5,0,10,50⟩, ⟨10,0,10,25⟩] =
    [⟨0,0,10,100⟩, ⟨10,0,10,25⟩] := by decide

/-! ## Prediction engine (`PredictionEngine`, src/unnamed/part_000
lines 424-478) -/

/-- Per-image analysis record (`{index, empty, total}` as produced by
`Application.analyzeAllImages`; the `card` DOM handle is UI glue). -/
structure ImgResult where
  index : Nat
  empty : Nat
  total : Nat
deriving DecidableEq

/-- Strict comparator of `predictMaximum`'s sort: most empty boxes
first, ties broken by fewest total boxes (src/unnamed/part_000
lines 444-449). -/
def maxLt (a b : ImgResult) : Bool :=
  decide (b.empty < a.empty) || (a.empty == b.empty && decide (a.total < b.total))

/-- `PredictionEngine.predictMaximum` (src/unnamed/part_000
lines 443-456): stable-sort, take the winner, select it only when it has
at least one empty box; the result pair is (selected index, approximate),
with `-1` rendered as `none`. -/
def predictMaximum (results : List ImgResult) : Option Nat × Bool :=
  match stableSort maxLt results with
  | [] => (none, false)
  | w :: _ => (if 0 < w.empty then some w.index else none, false)

/-- Strict comparator of `predictExact`'s fallback sort: smaller absolute
difference to the target first (src/unnamed/part_000 lines 469-471). -/
def exactLt (target : Nat) (a b : ImgResult) : Bool :=
  decide (Nat.dist a.empty target < Nat.dist b.empty target)

/-- `PredictionEngine.predictExact` (src/unnamed/part_000 lines 461-477):
first result with `empty === target` wins exactly; otherwise the head of
the stable sort by absolute difference wins approximately; the empty list
yields no selection (still flagged approximate, as the source does). -/
def predictExact (results : List ImgResult) (target : Nat) : Option Nat × Bool :=
  match results.find? fun r => r.empty == target with
  | some r => (some r.index, false)
  | none =>
    match stableSort (exactLt target) results with
    | [] => (none, true)
    | c :: _ => (some c.index, true)

/-- `PredictionEngine.predict` (src/unnamed/part_000 lines 428-438):
dispatch on the parsed rule type; `OUTLIER`/`UNKNOWN` yield no decision. -/
def predict (results : List ImgResult) (ruleType : RuleType) (target : Nat) :
    Option Nat × Bool :=
  match ruleType with
  | .MAX => predictMaximum results
  | .EXACT => predictExact results target
  | _ => (none, false)

example : predictMaximum [⟨0,0,4⟩, ⟨1,3,4⟩, ⟨2,1,4⟩, ⟨3,2,4⟩] = (some 1, false) := by
  decide
example : predictMaximum [⟨0,0,4⟩, ⟨1,0,4⟩, ⟨2,0,4⟩] = (none, false) := by decide
example : predictExact [⟨0,0,4⟩, ⟨1,3,4⟩, ⟨2,1,4⟩, ⟨3,2,4⟩] 2 = (some 3, false) := by
  decide
example : predictExact [⟨0,0,4⟩, ⟨1,3,4⟩, ⟨2,1,4⟩, ⟨3,2,4⟩] 5 = (some 1, true) := by
  decide

/-! ## Per-image analysis and the orchestrator
(`ComputerVision.analyze`, src/unnamed/part_000 lines 171-199, and
`Application.analyzeAllImages`, lines 772-800)

The OpenCV pipeline body is a collaborator: it either returns an
`(empty, total)` pair or raises, modelled as `Except`.  Loading an image
either succeeds and hands the decoded surface to `analyze` (the `onload`
path) or fails (`onerror`). -/

/-- `ComputerVision.analyze`: the sentinel `{empty: 0, total: 0}` when
the OpenCV backend is not ready, when the pipeline body raises, and the
body's pair otherwise.  The `finally` matrix release has no bearing on
the returned value. -/
def analyze (ready : Bool) (body : Except String (Nat × Nat)) : Nat × Nat :=
  if ready then
    match body with
    | .ok r => r
    | .error _ => (0, 0)
  else (0, 0)

/-- One image's load outcome: `.error` is the `onerror` path, `.ok body`
the `onload` path carrying the vision pipeline's outcome. -/
abbrev LoadOutcome := Except Unit (Except String (Nat × Nat))

/-- Does this outcome represent a failure (unreadable image, or a raising
pipeline)? -/
def loadFails : LoadOutcome → Bool
  | .error _ => true
  | .ok (.error _) => true
  | .ok (.ok _) => false

/-- The per-image resolver of `Application.analyzeAllImages`
(src/unnamed/part_000 lines 782-796): `onerror` resolves `{index, 0, 0}`,
`onload` resolves with `analyze`'s counts. -/
def resolveImage (ready : Bool) (i : Nat) : LoadOutcome → ImgResult
  | .error _ => ⟨i, 0, 0⟩
  | .ok body => ⟨i, (analyze ready body).1, (analyze ready body).2⟩

/-- `Application.analyzeAllImages` (src/unnamed/part_000 lines 772-800):
`Promise.all` over the images, each resolving to its indexed result; the
result array is positional, one slot per input image. -/
def analyzeAllImages (ready : Bool) (loads : List LoadOutcome) : List ImgResult :=
  loads.enum.map fun p => resolveImage ready p.1 p.2

/-- A completion event of one per-image analysis: the image index
together with its (empty, total) counts. -/
abbrev Completion := Nat × (Nat × Nat)

/-- The completion events of a batch, in input order. -/
def completionsOf (rs : List ImgResult) : List Completion :=
  rs.map fun r => (r.index, (r.empty, r.total))

/-- Store one completion event into the positional result array, the way
each `resolve` of `Promise.all` fills the slot of its own index. -/
def applyCompletion (acc : List (Option ImgResult)) (e : Completion) :
    List (Option ImgResult) :=
  acc.set e.1 (some ⟨e.1, e.2.1, e.2.2⟩)

/-- Fan-in of the batch: starting from an unfilled array of `n` slots,
store the completion events in the order the analyses finish. -/
def assemble (n : Nat) (events : List Completion) : List (Option ImgResult) :=
  events.foldl applyCompletion (List.replicate n none)

/-! ## Rectangularity gate (`ComputerVision.filterRectangularContours`,
src/unnamed/part_000 lines 263-293)

`calculateAngle` (lines 111-120) computes each internal vertex angle in
degrees through `Math.acos`; those transcendental values are taken as the
`angles` input here, and the convexity test `cv.isContourConvex` is an
OpenCV collaborator, abstracted as a flag. -/

/-- A polygon candidate as seen by the gate: its contour area, the
number of vertices of the approximated polygon, OpenCV's convexity
verdict, and the internal angle (in degrees) at each vertex. -/
structure PolyCandidate where
  area : ℚ
  vertexCount : Nat
  convex : Bool
  angles : List ℚ

/-- The per-vertex angle test `Math.abs(angle - 90) <=
config.angleThreshold` over all vertices (src/unnamed/part_000
lines 272-279). -/
def anglesRectangular (angles : List ℚ) (tol : ℚ) : Bool :=
  angles.all fun a => decide (|a - 90| ≤ tol)

/-- The full acceptance test of `filterRectangularContours` for one
candidate: minimum area, exactly 4 vertices, convex, and every internal
angle within `tol` of 90 degrees. -/
def passesRectGate (minArea tol : ℚ) (c : PolyCandidate) : Bool :=
  decide (minArea ≤ c.area) && c.vertexCount == 4 && c.convex &&
    anglesRectangular c.angles tol

example : anglesRectangular [90, 90, 105, 75] 15 = true := by
  simp [anglesRectangular]
  norm_num
example : anglesRectangular [90, 90, 106, 74] 15 = false := by
  simp [anglesRectangular]
  norm_num

/-! ## Helper lemmas on the stable sort

The three `Array.prototype.sort` comparators of the source all derive
from numeric keys, so they are strict weak orders; the lemmas below are
parameterised by the three Boolean facts that encode this. -/

/-- `lt` is transitive. -/
def LtTrans (lt : α → α → Bool) : Prop :=
  ∀ a b c, lt a b = true → lt b c = true → lt a c = true

/-- The complement of `lt` is transitive (negative transitivity). -/
def LtNegTrans (lt : α → α → Bool) : Prop :=
  ∀ a b c, lt a b = false → lt b c = false → lt a c = false

/-- `lt` is irreflexive. -/
def LtIrrefl (lt : α → α → Bool) : Prop := ∀ a, lt a a = false

theorem lt_asymm_of (lt : α → α → Bool) (htr : LtTrans lt) (hir : LtIrrefl lt)
    {a b : α} (h : lt a b = true) : lt b a = false := by
  by_contra hba
  have hba' : lt b a = true := by
    cases hb : lt b a
    · exact absurd hb hba
    · rfl
  have := htr a b a h hba'
  rw [hir a] at this
  exact Bool.false_ne_true this

theorem insertSorted_perm (lt : α → α → Bool) (x : α) (l : List α) :
    List.Perm (insertSorted lt x l) (x :: l) := by
  induction l with
  | nil => simp [insertSorted]
  | cons y ys ih =>
    by_cases h : lt y x = true
    · simp only [insertSorted, h, if_true]
      exact (ih.cons y).trans (List.Perm.swap x y ys)
    · simp only [insertSorted, h, if_false]
      exact List.Perm.refl _

theorem stableSort_perm (lt : α → α → Bool) (l : List α) :
    List.Perm (stableSort lt l) l := by
  induction l with
  | nil => exact List.Perm.refl _
  | cons x xs ih =>
    exact (insertSorted_perm lt x (stableSort lt xs)).trans (ih.cons x)

theorem mem_insertSorted {lt : α → α → Bool} {x y : α} {l : List α} :
    y ∈ insertSorted lt x l ↔ y = x ∨ y ∈ l := by
  rw [(insertSorted_perm lt x l).mem_iff]
  simp

/-- The first element attaining the minimum of the comparator: the head
of any stable sort. -/
def firstMinBy (lt : α → α → Bool) : List α → Option α
  | [] => none
  | x :: xs =>
    match firstMinBy lt xs with
    | none => some x
    | some m => if lt m x then some m else some x

theorem firstMinBy_eq_none {lt : α → α → Bool} {l : List α} :
    firstMinBy lt l = none ↔ l = [] := by
  cases l with
  | nil => simp [firstMinBy]
  | cons x xs =>
    simp only [firstMinBy]
    constructor
    · intro h
      cases hm : firstMinBy lt xs with
      | none => rw [hm] at h; exact absurd h (by simp)
      | some m =>
        rw [hm] at h
        by_cases hl : lt m x = true <;> simp [hl] at h
    · intro h
      exact absurd h (by simp)

theorem insertSorted_head (lt : α → α → Bool) (x : α) (l : List α) :
    (insertSorted lt x l).head? =
      match l with
      | [] => some x
      | y :: _ => if lt y x then some y else some x := by
  cases l with
  | nil => rfl
  | cons y ys =>
    by_cases h : lt y x = true <;> simp [insertSorted, h]

theorem stableSort_head (lt : α → α → Bool) (l : List α) :
    (stableSort lt l).head? = firstMinBy lt l := by
  induction l with
  | nil => rfl
  | cons x xs ih =>
    simp only [stableSort, firstMinBy]
    rw [insertSorted_head]
    cases hs : stableSort lt xs with
    | nil =>
      have : firstMinBy lt xs = none := by rw [← ih, hs]; rfl
      rw [this]
    | cons y ys =>
      have : firstMinBy lt xs = some y := by rw [← ih, hs]; rfl
      rw [this]

theorem firstMinBy_split (lt : α → α → Bool) (htr : LtTrans lt)
    (hng : LtNegTrans lt) (hir : LtIrrefl lt) :
    ∀ (l : List α) (m : α), firstMinBy lt l = some m →
      ∃ l₁ l₂, l = l₁ ++ m :: l₂ ∧ (∀ x ∈ l₁, lt m x = true) ∧
        (∀ x ∈ l, lt x m = false) := by
  intro l
  induction l with
  | nil => intro m h; exact absurd h (by simp [firstMinBy])
  | cons x xs ih =>
    intro m h
    rw [firstMinBy] at h
    cases hm : firstMinBy lt xs with
    | none =>
      rw [hm] at h
      simp only [Option.some.injEq] at h
      subst h
      have hxs : xs = [] := firstMinBy_eq_none.mp hm
      subst hxs
      refine ⟨[], [], rfl, by simp, ?_⟩
      intro z hz
      have hzx : z = x := by simpa using hz
      subst hzx
      exact hir z
    | some m' =>
      rw [hm] at h
      obtain ⟨l₁, l₂, hsplit, hstrict, hmin⟩ := ih m' hm
      by_cases hcmp : lt m' x = true
      · simp only [hcmp, if_true, Option.some.injEq] at h
        subst h
        refine ⟨x :: l₁, l₂, by rw [hsplit]; rfl, ?_, ?_⟩
        · intro z hz
          rcases List.mem_cons.mp hz with hz | hz
          · exact hz ▸ hcmp
          · exact hstrict z hz
        · intro z hz
          rcases List.mem_cons.mp hz with hz | hz
          · subst hz
            exact lt_asymm_of lt htr hir hcmp
          · exact hmin z hz
      · have hcmp' : lt m' x = false := by
          cases hc : lt m' x
          · rfl
          · exact absurd hc hcmp
        simp only [hcmp', Bool.false_eq_true, if_false, Option.some.injEq] at h
        subst h
        refine ⟨[], xs, rfl, by simp, ?_⟩
        intro z hz
        rcases List.mem_cons.mp hz with hz | hz
        · exact hz ▸ hir x
        · -- z lies in xs; compare it with the old first minimum m'
          have hzmem : z ∈ l₁ ++ m' :: l₂ := hsplit ▸ hz
          have hzm : lt z m' = false := hmin z hz
          cases hzx : lt z x with
          | false => rfl
          | true =>
            exfalso
            rcases List.mem_append.mp hzmem with hz1 | hz2
            · have hmx := htr m' z x (hstrict z hz1) hzx
              rw [hcmp'] at hmx
              exact Bool.false_ne_true hmx
            · rcases List.mem_cons.mp hz2 with hz2 | hz2
              · subst hz2
                rw [hzx] at hcmp'
                exact absurd hcmp' (by simp)
              · have hf := hng z m' x hzm hcmp'
                rw [hzx] at hf
                exact absurd hf (by simp)

theorem insertSorted_pairwise (lt : α → α → Bool) (htr : LtTrans lt)
    (hng : LtNegTrans lt) (hir : LtIrrefl lt) (x : α) (l : List α)
    (hl : l.Pairwise fun a b => lt b a = false) :
    (insertSorted lt x l).Pairwise fun a b => lt b a = false := by
  induction l with
  | nil => simp [insertSorted]
  | cons y ys ih =>
    rcases List.pairwise_cons.mp hl with ⟨hy, hys⟩
    by_cases h : lt y x = true
    · simp only [insertSorted, h, if_true]
      refine List.pairwise_cons.mpr ⟨?_, ih hys⟩
      intro z hz
      rcases mem_insertSorted.mp hz with hz | hz
      · subst hz
        exact lt_asymm_of lt htr hir h
      · exact hy z hz
    · have h' : lt y x = false := by
        cases hc : lt y x
        · rfl
        · exact absurd hc h
      simp only [insertSorted, h, if_false]
      refine List.pairwise_cons.mpr ⟨?_, hl⟩
      intro z hz
      rcases List.mem_cons.mp hz with hz | hz
      · subst hz
        exact h'
      · exact hng z y x (hy z hz) h'

theorem stableSort_pairwise (lt : α → α → Bool) (htr : LtTrans lt)
    (hng : LtNegTrans lt) (hir : LtIrrefl lt) (l : List α) :
    (stableSort lt l).Pairwise fun a b => lt b a = false := by
  induction l with
  | nil => simp [stableSort]
  | cons x xs ih => exact insertSorted_pairwise lt htr hng hir x _ ih

/-- Stability of the stable sort, on position-tagged elements whose tags
increase left to right: in the output, an element precedes another
exactly when it strictly precedes it under the comparator, or the two
are incomparable and the first was discovered earlier. -/
theorem insertSorted_stable (lt : α → α → Bool) (htr : LtTrans lt)
    (hng : LtNegTrans lt) (x : ℕ × α) (l : List (ℕ × α))
    (hl : l.Pairwise fun a b =>
      lt a.2 b.2 = true ∨ (lt a.2 b.2 = false ∧ lt b.2 a.2 = false ∧ a.1 < b.1))
    (htag : ∀ y ∈ l, x.1 < y.1) :
    (insertSorted (fun a b => lt a.2 b.2) x l).Pairwise fun a b =>
      lt a.2 b.2 = true ∨ (lt a.2 b.2 = false ∧ lt b.2 a.2 = false ∧ a.1 < b.1) := by
  induction l with
  | nil => simp [insertSorted]
  | cons y ys ih =>
    rcases List.pairwise_cons.mp hl with ⟨hy, hys⟩
    by_cases h : lt y.2 x.2 = true
    · simp only [insertSorted, h, if_true]
      refine List.pairwise_cons.mpr ⟨?_, ih hys fun z hz => htag z (by simp [hz])⟩
      intro z hz
      rcases mem_insertSorted.mp hz with hz | hz
      · subst hz
        exact Or.inl h
      · exact hy z hz
    · have h' : lt y.2 x.2 = false := by
        cases hc : lt y.2 x.2
        · rfl
        · exact absurd hc h
      simp only [insertSorted, h, if_false]
      refine List.pairwise_cons.mpr ⟨?_, hl⟩
      intro z hz
      have htagz : x.1 < z.1 := htag z hz
      cases hxz : lt x.2 z.2 with
      | true => exact Or.inl rfl
      | false =>
        refine Or.inr ⟨rfl, ?_, htagz⟩
        -- z cannot strictly precede x: it either strictly follows y or is
        -- incomparable with it, and y does not strictly precede x.
        rcases List.mem_cons.mp hz with hz | hz
        · subst hz
          exact h'
        · cases hzx : lt z.2 x.2 with
          | false => rfl
          | true =>
            exfalso
            rcases hy z hz with hyz | ⟨_, hzy, _⟩
            · have hmx := htr y.2 z.2 x.2 hyz hzx
              rw [h'] at hmx
              exact absurd hmx (by simp)
            · have hf := hng z.2 y.2 x.2 hzy h'
              rw [hzx] at hf
              exact absurd hf (by simp)

theorem stableSort_stable (lt : α → α → Bool) (htr : LtTrans lt)
    (hng : LtNegTrans lt) (l : List (ℕ × α))
    (hl : (l.map Prod.fst).Pairwise (· < ·)) :
    (stableSort (fun a b => lt a.2 b.2) l).Pairwise fun a b =>
      lt a.2 b.2 = true ∨ (lt a.2 b.2 = false ∧ lt b.2 a.2 = false ∧ a.1 < b.1) := by
  induction l with
  | nil => simp [stableSort]
  | cons x xs ih =>
    rw [List.map_cons, List.pairwise_cons] at hl
    rcases hl with ⟨hx, hxs⟩
    refine insertSorted_stable lt htr hng x _ (ih hxs) ?_
    intro y hy
    have hy' : y ∈ xs := ((stableSort_perm _ xs).mem_iff).mp hy
    exact hx y.1 (List.mem_map_of_mem Prod.fst hy')

/-- Untagging commutes with the sort when the comparator ignores tags. -/
theorem insertSorted_map_snd (lt : α → α → Bool) (x : ℕ × α) (l : List (ℕ × α)) :
    (insertSorted (fun a b => lt a.2 b.2) x l).map Prod.snd =
      insertSorted lt x.2 (l.map Prod.snd) := by
  induction l with
  | nil => simp [insertSorted]
  | cons y ys ih =>
    by_cases h : lt y.2 x.2 = true <;>
      simp [insertSorted, h, ih]

theorem stableSort_map_snd (lt : α → α → Bool) (l : List (ℕ × α)) :
    (stableSort (fun a b => lt a.2 b.2) l).map Prod.snd =
      stableSort lt (l.map Prod.snd) := by
  induction l with
  | nil => simp [stableSort]
  | cons x xs ih =>
    simp only [stableSort, List.map_cons]
    rw [insertSorted_map_snd, ih]

/-! Strict-weak-order facts for the three source comparators. -/

theorem areaLt_trans : LtTrans areaLt := by
  intro a b c hab hbc
  simp only [areaLt, decide_eq_true_eq] at *
  exact hbc.trans hab

theorem areaLt_negTrans : LtNegTrans areaLt := by
  intro a b c hab hbc
  simp only [areaLt, decide_eq_false_iff_not, not_lt] at *
  exact hab.trans hbc

theorem areaLt_irrefl : LtIrrefl areaLt := by
  intro a
  simp [areaLt]

theorem exactLt_trans (t : ℕ) : LtTrans (exactLt t) := by
  intro a b c hab hbc
  simp only [exactLt, decide_eq_true_eq] at *
  omega

theorem exactLt_negTrans (t : ℕ) : LtNegTrans (exactLt t) := by
  intro a b c hab hbc
  simp only [exactLt, decide_eq_false_iff_not, not_lt] at *
  omega

theorem exactLt_irrefl (t : ℕ) : LtIrrefl (exactLt t) := by
  intro a
  simp [exactLt]

theorem maxLt_iff (a b : ImgResult) :
    maxLt a b = true ↔ b.empty < a.empty ∨ (a.empty = b.empty ∧ a.total < b.total) := by
  simp only [maxLt, Bool.or_eq_true, Bool.and_eq_true, beq_iff_eq, decide_eq_true_eq]

theorem maxLt_trans : LtTrans maxLt := by
  intro a b c hab hbc
  rw [maxLt_iff] at *
  omega

theorem maxLt_negTrans : LtNegTrans maxLt := by
  intro a b c hab hbc
  have hab' := hab
  have hbc' := hbc
  rw [← Bool.not_eq_true, maxLt_iff] at hab' hbc'
  rw [← Bool.not_eq_true, maxLt_iff]
  omega

theorem maxLt_irrefl : LtIrrefl maxLt := by
  intro a
  rw [← Bool.not_eq_true, maxLt_iff]
  omega

/-! ## Miscellaneous list lemmas -/

theorem take_any_iff (p : α → Bool) :
    ∀ (l : List α) (i : ℕ),
      (l.take i).any p = true ↔ ∃ j, j < i ∧ ∃ a, l.get? j = some a ∧ p a = true := by
  intro l
  induction l with
  | nil =>
    intro i
    simp
  | cons x xs ih =>
    intro i
    cases i with
    | zero => simp
    | succ k =>
      simp only [List.take_succ_cons, List.any_cons, Bool.or_eq_true]
      constructor
      · rintro (hx | hrest)
        · exact ⟨0, Nat.succ_pos k, x, rfl, hx⟩
        · obtain ⟨j, hj, a, hget, hpa⟩ := (ih k).mp hrest
          exact ⟨j + 1, Nat.succ_lt_succ hj, a, hget, hpa⟩
      · rintro ⟨j, hj, a, hget, hpa⟩
        cases j with
        | zero =>
          left
          cases hget
          exact hpa
        | succ j' =>
          right
          exact (ih k).mpr ⟨j', Nat.lt_of_succ_lt_succ hj, a, hget, hpa⟩

theorem enumFrom_filter_map_snd_sublist (P : ℕ × α → Bool) :
    ∀ (l : List α) (n : ℕ),
      List.Sublist (((l.enumFrom n).filter P).map Prod.snd) l := by
  intro l
  induction l with
  | nil =>
    intro n
    simp
  | cons x xs ih =>
    intro n
    simp only [List.enumFrom_cons, List.filter_cons]
    by_cases h : P (n, x) = true
    · simp only [h, if_true, List.map_cons]
      exact (ih (n + 1)).cons₂ x
    · simp only [h, if_false]
      exact (ih (n + 1)).cons x

theorem find?_split (p : α → Bool) :
    ∀ (l : List α) (r : α), l.find? p = some r →
      p r = true ∧ ∃ l₁ l₂, l = l₁ ++ r :: l₂ ∧ ∀ x ∈ l₁, p x = false := by
  intro l
  induction l with
  | nil => intro r h; exact absurd h (by simp)
  | cons x xs ih =>
    intro r h
    by_cases hx : p x = true
    · rw [List.find?_cons_of_pos _ hx] at h
      cases h
      exact ⟨hx, [], xs, rfl, by simp⟩
    · have hx' : p x = false := by
        cases hc : p x
        · rfl
        · exact absurd hc hx
      rw [List.find?_cons_of_neg _ hx] at h
      obtain ⟨hr, l₁, l₂, hsplit, hfalse⟩ := ih r h
      refine ⟨hr, x :: l₁, l₂, by rw [hsplit]; rfl, ?_⟩
      intro z hz
      rcases List.mem_cons.mp hz with hz | hz
      · exact hz ▸ hx'
      · exact hfalse z hz

/-! ## Helper lemmas for the orchestrator -/

theorem resolveImage_index (ready : Bool) (i : ℕ) (o : LoadOutcome) :
    (resolveImage ready i o).index = i := by
  cases o with
  | error e => rfl
  | ok body => rfl

theorem enumFrom_map_get? (f : ℕ → α → β) :
    ∀ (l : List α) (n i : ℕ),
      ((l.enumFrom n).map fun p => f p.1 p.2).get? i = (l.get? i).map (f (n + i)) := by
  intro l
  induction l with
  | nil => intro n i; simp
  | cons x xs ih =>
    intro n i
    cases i with
    | zero => simp
    | succ k =>
      simp only [List.enumFrom_cons, List.map_cons, List.get?_cons_succ]
      rw [ih (n + 1) k]
      have h1 : n + 1 + k = n + (k + 1) := by omega
      rw [h1]

theorem analyzeAllImages_get? (ready : Bool) (loads : List LoadOutcome) (i : ℕ) :
    (analyzeAllImages ready loads).get? i = (loads.get? i).map (resolveImage ready i) := by
  simp only [analyzeAllImages, List.enum]
  rw [enumFrom_map_get? (resolveImage ready) loads 0 i]
  have h0 : 0 + i = i := by omega
  rw [h0]

theorem analyzeAllImages_length (ready : Bool) (loads : List LoadOutcome) :
    (analyzeAllImages ready loads).length = loads.length := by
  simp [analyzeAllImages]

theorem analyzeAllImages_map_index (ready : Bool) (loads : List LoadOutcome) :
    (analyzeAllImages ready loads).map (fun r => r.index) = List.range loads.length := by
  simp only [analyzeAllImages, List.map_map]
  have h : ((fun r => ImgResult.index r) ∘ fun p : ℕ × LoadOutcome => resolveImage ready p.1 p.2) =
      Prod.fst := by
    funext p
    exact resolveImage_index ready p.1 p.2
  rw [h, List.enum_map_fst]

theorem foldl_applyCompletion_perm {l₁ l₂ : List Completion}
    (h : List.Perm l₁ l₂) :
    (l₁.map Prod.fst).Nodup →
      ∀ acc, l₁.foldl applyCompletion acc = l₂.foldl applyCompletion acc := by
  induction h with
  | nil => intro _ acc; rfl
  | cons x h ih =>
    intro hnd acc
    simp only [List.map_cons, List.nodup_cons] at hnd
    simp only [List.foldl_cons]
    exact ih hnd.2 (applyCompletion acc x)
  | swap x y l =>
    intro hnd acc
    simp only [List.map_cons, List.nodup_cons, List.mem_cons] at hnd
    have hxy : y.1 ≠ x.1 := fun h => hnd.1 (Or.inl h)
    simp only [List.foldl_cons]
    have hcomm : applyCompletion (applyCompletion acc y) x =
        applyCompletion (applyCompletion acc x) y := by
      simp only [applyCompletion]
      exact List.set_comm _ _ _ hxy
    rw [hcomm]
  | trans h₁ h₂ ih₁ ih₂ =>
    intro hnd acc
    rw [ih₁ hnd acc]
    have hnd₂ := ((h₁.map Prod.fst).nodup_iff).mp hnd
    rw [ih₂ hnd₂ acc]

theorem set_take_succ (v : β) :
    ∀ (l : List β) (k : ℕ), k < l.length →
      (l.set k v).take (k + 1) = l.take k ++ [v] := by
  intro l
  induction l with
  | nil => intro k hk; simp at hk
  | cons x xs ih =>
    intro k hk
    cases k with
    | zero => simp
    | succ k' =>
      simp only [List.set_cons_succ, List.take_succ_cons, List.cons_append]
      rw [ih k' (by simpa using hk)]

theorem completionsOf_cons (r : ImgResult) (rest : List ImgResult) :
    completionsOf (r :: rest) = (r.index, (r.empty, r.total)) :: completionsOf rest := rfl

theorem foldl_fill :
    ∀ (rs : List ImgResult) (k : ℕ) (acc : List (Option ImgResult)),
      acc.length = k + rs.length →
      (∀ j (h : j < rs.length), (rs.get ⟨j, h⟩).index = k + j) →
      (completionsOf rs).foldl applyCompletion acc = acc.take k ++ rs.map some := by
  intro rs
  induction rs with
  | nil =>
    intro k acc hlen _
    simp only [completionsOf, List.map_nil, List.foldl_nil, List.append_nil]
    have hk : acc.length = k := by simpa using hlen
    rw [← hk, List.take_length]
  | cons r rest ih =>
    intro k acc hlen hidx
    obtain ⟨ri, re, rt⟩ := r
    have hrk : ri = k := by
      have h0 := hidx 0 (by simp)
      simpa using h0
    subst hrk
    have hklt : ri < acc.length := by
      simp only [List.length_cons] at hlen
      omega
    rw [completionsOf_cons, List.foldl_cons]
    have hstep : applyCompletion acc (ri, (re, rt)) = acc.set ri (some ⟨ri, re, rt⟩) := rfl
    rw [hstep]
    have hlen' : (acc.set ri (some ⟨ri, re, rt⟩)).length = (ri + 1) + rest.length := by
      simp only [List.length_set]
      simp only [List.length_cons] at hlen
      omega
    have hidx' : ∀ j (h : j < rest.length), (rest.get ⟨j, h⟩).index = (ri + 1) + j := by
      intro j hj
      have h1 := hidx (j + 1) (by simp only [List.length_cons]; omega)
      simp only [List.get_cons_succ] at h1
      omega
    rw [ih (ri + 1) (acc.set ri (some ⟨ri, re, rt⟩)) hlen' hidx']
    rw [set_take_succ (some ⟨ri, re, rt⟩) acc ri hklt]
    simp

/-! ## Helper lemmas for the regex scans -/

theorem scanFirst_some_iff (f : List Char → Option ℕ) :
    ∀ (l : List Char) (n : ℕ), scanFirst f l = some n ↔
      ∃ i, i ≤ l.length ∧ f (l.drop i) = some n ∧ ∀ j, j < i → f (l.drop j) = none := by
  intro l
  induction l with
  | nil =>
    intro n
    simp only [scanFirst, List.drop_nil]
    constructor
    · intro h
      exact ⟨0, by simp, h, by omega⟩
    · rintro ⟨i, _, h, _⟩
      exact h
  | cons c cs ih =>
    intro n
    simp only [scanFirst]
    cases hf : f (c :: cs) with
    | some m =>
      simp only [Option.some.injEq]
      constructor
      · intro h
        subst h
        exact ⟨0, by simp, hf, by omega⟩
      · rintro ⟨i, hi, hfi, hnone⟩
        cases i with
        | zero =>
          rw [List.drop_zero] at hfi
          rw [hf] at hfi
          exact (Option.some.injEq _ _).mp hfi
        | succ i' =>
          have h0 := hnone 0 (Nat.succ_pos i')
          rw [List.drop_zero, hf] at h0
          exact absurd h0 (by simp)
    | none =>
      rw [ih n]
      constructor
      · rintro ⟨i, hi, hfi, hnone⟩
        refine ⟨i + 1, by simpa using Nat.succ_le_succ hi, by simpa using hfi, ?_⟩
        intro j hj
        cases j with
        | zero => simpa using hf
        | succ j' => simpa using hnone j' (Nat.lt_of_succ_lt_succ hj)
      · rintro ⟨i, hi, hfi, hnone⟩
        cases i with
        | zero =>
          rw [List.drop_zero, hf] at hfi
          exact absurd hfi (by simp)
        | succ i' =>
          refine ⟨i', by simpa using hi, by simpa using hfi, ?_⟩
          intro j hj
          have := hnone (j + 1) (Nat.succ_lt_succ hj)
          simpa using this

theorem scanFirst_none_iff (f : List Char → Option ℕ) :
    ∀ (l : List Char), scanFirst f l = none ↔
      ∀ i, i ≤ l.length → f (l.drop i) = none := by
  intro l
  induction l with
  | nil =>
    simp only [scanFirst, List.drop_nil]
    constructor
    · intro h i _
      exact h
    · intro h
      exact h 0 (by simp)
  | cons c cs =>
    rename_i ih
    simp only [scanFirst]
    cases hf : f (c :: cs) with
    | some m =>
      constructor
      · intro h
        exact absurd h (by simp)
      · intro h
        have h0 := h 0 (by simp)
        rw [List.drop_zero, hf] at h0
        exact absurd h0 (by simp)
    | none =>
      rw [ih]
      constructor
      · intro h i hi
        cases i with
        | zero => simpa using hf
        | succ i' => simpa using h i' (by simpa using hi)
      · intro h i hi
        have h1 := h (i + 1) (by simpa using Nat.succ_le_succ hi)
        simpa using h1

/-! ## Helper lemmas for the DOM pruning -/

theorem textTrees_append :
    ∀ (a b : DomForest), textTrees (appendForest a b) = textTrees a ++ textTrees b
  | .nil, b => by simp [appendForest, textTrees]
  | .cons n f, b => by simp [appendForest, textTrees, textTrees_append f b]

mutual
theorem textTree_prune (hidden : List Char → Bool) (n : DomTree) :
    textTrees (pruneTree hidden n) = visibleTree hidden n := by
  cases n with
  | text s => simp [pruneTree, textTrees, textTree, visibleTree]
  | elem st ch =>
    by_cases h : hidden st = true
    · simp [pruneTree, h, textTrees, visibleTree]
    · simp only [pruneTree, h, if_false, textTrees, textTree, visibleTree,
        List.append_nil]
      exact textTrees_prune hidden ch
theorem textTrees_prune (hidden : List Char → Bool) (f : DomForest) :
    textTrees (pruneTrees hidden f) = visibleTrees hidden f := by
  cases f with
  | nil => rfl
  | cons n f' =>
    simp only [pruneTrees, visibleTrees, textTrees_append]
    rw [textTree_prune hidden n, textTrees_prune hidden f']
end

theorem mem_take_get? :
    ∀ (l : List α) (i : ℕ) (a : α),
      a ∈ l.take i ↔ ∃ j, j < i ∧ l.get? j = some a := by
  intro l
  induction l with
  | nil =>
    intro i a
    simp
  | cons x xs ih =>
    intro i a
    cases i with
    | zero => simp
    | succ k =>
      simp only [List.take_succ_cons, List.mem_cons]
      constructor
      · rintro (ha | ha)
        · exact ⟨0, Nat.succ_pos k, by rw [ha]; rfl⟩
        · obtain ⟨j, hj, hget⟩ := (ih k a).mp ha
          exact ⟨j + 1, Nat.succ_lt_succ hj, hget⟩
      · rintro ⟨j, hj, hget⟩
        cases j with
        | zero =>
          left
          cases hget
          rfl
        | succ j' =>
          right
          exact (ih k a).mpr ⟨j', Nat.lt_of_succ_lt_succ hj, hget⟩

/-! # The claims -/

/-- C3 counterexample: the claim's single cascade is false for the
cited `LogicParser.parse` of src/unnamed/part_000 — a text containing
`most` (or `maximum`) is classified `UNKNOWN` there, not `MAXIMUM`, and
a text containing `pair` is classified `UNKNOWN`, never `OUTLIER`; the
claimed cascade is exactly the 60%slop variant's behaviour. -/
theorem classify_v1_cex :
    classifyTextV1 "the most empty marks".data = .UNKNOWN ∧
    classifyText "the most empty marks".data = .MAX ∧
    classifyTextV1 "the pair of marks".data = .UNKNOWN ∧
    classifyText "the pair of marks".data = .OUTLIER ∧
    classifyTextV1 "maximum empty marks".data = .UNKNOWN ∧
    classifyTextV1 "the highest number of marks".data = .MAX := by
  refine ⟨by decide, by decide, by decide, by decide, by decide, by decide⟩

/-- C3 amended: the 60%slop interpreter checks categories in priority
order with first match winning — `highest`, `most` or `maximum` yields
`MAX`; otherwise `exactly` yields `EXACT`; otherwise `pair`,
`not like the others` or `odd one out` yields `OUTLIER`; otherwise
`UNKNOWN` — while the part_000 interpreter runs the narrower cascade
`highest number` → `MAX`, otherwise `exactly` → `EXACT`, otherwise
`UNKNOWN`, and never produces `OUTLIER`. -/
theorem classify_priority_spec (t : List Char) :
    ((classifyText t = .MAX ↔
      (containsSubL t "highest".data = true ∨ containsSubL t "most".data = true ∨
        containsSubL t "maximum".data = true)) ∧
    (classifyText t = .EXACT ↔
      (containsSubL t "highest".data = false ∧ containsSubL t "most".data = false ∧
        containsSubL t "maximum".data = false ∧ containsSubL t "exactly".data = true)) ∧
    (classifyText t = .OUTLIER ↔
      (containsSubL t "highest".data = false ∧ containsSubL t "most".data = false ∧
        containsSubL t "maximum".data = false ∧ containsSubL t "exactly".data = false ∧
        (containsSubL t "pair".data = true ∨
          containsSubL t "not like the others".data = true ∨
          containsSubL t "odd one out".data = true))) ∧
    (classifyText t = .UNKNOWN ↔
      (containsSubL t "highest".data = false ∧ containsSubL t "most".data = false ∧
        containsSubL t "maximum".data = false ∧ containsSubL t "exactly".data = false ∧
        containsSubL t "pair".data = false ∧
        containsSubL t "not like the others".data = false ∧
        containsSubL t "odd one out".data = false))) ∧
    ((classifyTextV1 t = .MAX ↔ containsSubL t "highest number".data = true) ∧
    (classifyTextV1 t = .EXACT ↔
      (containsSubL t "highest number".data = false ∧
        containsSubL t "exactly".data = true)) ∧
    classifyTextV1 t ≠ .OUTLIER ∧
    (classifyTextV1 t = .UNKNOWN ↔
      (containsSubL t "highest number".data = false ∧
        containsSubL t "exactly".data = false))) := by
  constructor
  · unfold classifyText
    cases h1 : containsSubL t "highest".data <;>
      cases h2 : containsSubL t "most".data <;>
        cases h3 : containsSubL t "maximum".data <;>
          cases h4 : containsSubL t "exactly".data <;>
            cases h5 : containsSubL t "pair".data <;>
              cases h6 : containsSubL t "not like the others".data <;>
                cases h7 : containsSubL t "odd one out".data <;>
                  simp
  · unfold classifyTextV1
    cases hA : containsSubL t "highest number".data <;>
      cases hB : containsSubL t "exactly".data <;>
        simp

/-- Witness for C3 (amended) at concrete instruction texts: the same
text classified by both variants. -/
theorem classify_priority_spec_witness :
    classifyText "pick the image with exactly 3 boxes".data = .EXACT ∧
    classifyTextV1 "pick the image with exactly 3 boxes".data = .EXACT ∧
    classifyText "the most empty marks".data = .MAX ∧
    classifyTextV1 "the most empty marks".data = .UNKNOWN := by
  refine ⟨?_, ?_, ?_, ?_⟩
  · exact (classify_priority_spec "pick the image with exactly 3 boxes".data).1.2.1.mpr
      (by refine ⟨?_, ?_, ?_, ?_⟩ <;> decide)
  · exact (classify_priority_spec "pick the image with exactly 3 boxes".data).2.2.1.mpr
      (by exact ⟨by decide, by decide⟩)
  · exact (classify_priority_spec "the most empty marks".data).1.1.mpr
      (Or.inr (Or.inl (by decide)))
  · exact (classify_priority_spec "the most empty marks".data).2.2.2.2.mpr
      (by exact ⟨by decide, by decide⟩)

/-- C9: the rectangularity gate accepts a convex quadrilateral exactly
when the internal angle at every vertex deviates from 90° by at most the
tolerance, boundary inclusive: 90° + tol is accepted, 90° + tol + 1° is
rejected (tolerance 15, the configured `angleThreshold`). -/
theorem rectGate_spec :
    (∀ (minArea tol : ℚ) (c : PolyCandidate),
      passesRectGate minArea tol c = true ↔
        (minArea ≤ c.area ∧ c.vertexCount = 4 ∧ c.convex = true ∧
          ∀ a ∈ c.angles, |a - 90| ≤ tol)) ∧
    passesRectGate 100 15 ⟨200, 4, true, [90, 90, 90, 105]⟩ = true ∧
    passesRectGate 100 15 ⟨200, 4, true, [90, 90, 90, 106]⟩ = false := by
  have hiff : ∀ (minArea tol : ℚ) (c : PolyCandidate),
      passesRectGate minArea tol c = true ↔
        (minArea ≤ c.area ∧ c.vertexCount = 4 ∧ c.convex = true ∧
          ∀ a ∈ c.angles, |a - 90| ≤ tol) := by
    intro minArea tol c
    simp only [passesRectGate, anglesRectangular, Bool.and_eq_true, beq_iff_eq,
      decide_eq_true_eq, List.all_eq_true, and_assoc]
  refine ⟨hiff, ?_, ?_⟩
  · refine (hiff 100 15 _).mpr ⟨by norm_num, rfl, rfl, ?_⟩
    intro a ha
    simp only [List.mem_cons, List.not_mem_nil, or_false] at ha
    rcases ha with h | h | h | h <;> rw [h] <;> norm_num
  · cases hb : passesRectGate 100 15 ⟨200, 4, true, [90, 90, 90, 106]⟩ with
    | false => rfl
    | true =>
      exfalso
      obtain ⟨_, _, _, hall⟩ := (hiff 100 15 _).mp hb
      have h106 := hall 106 (by simp)
      norm_num at h106

/-- Witness for C9: the boundary candidate accepted by the gate indeed
satisfies the angle condition elementwise. -/
theorem rectGate_spec_witness :
    (100 : ℚ) ≤ 200 ∧ (4 : ℕ) = 4 ∧ true = true ∧
      ∀ a ∈ ([90, 90, 90, 105] : List ℚ), |a - 90| ≤ 15 := by
  have h := (rectGate_spec.1 100 15 ⟨200, 4, true, [90, 90, 90, 105]⟩).mp
    rectGate_spec.2.1
  exact h

/-- C2 counterexample: the claim says the interpreter removes exactly
the nodes whose inline style carries `display:none`, `visibility:hidden`
or `opacity:0` as an exact property:value token.  The part_000
interpreter does not treat `opacity:0` as hidden at all — its text
contributes — and the 60%slop variant treats the *non-token* style
`opacity:0.5` as hidden (substring match). -/
theorem hiddenStyle_cex :
    isHiddenV1 "opacity:0".data = false ∧
    isHiddenV2 "opacity:0.5".data = true ∧
    parseVisibleTextV1
      (.cons (.elem "opacity:0".data (.cons (.text "exactly 9".data) .nil)) .nil) =
      "exactly 9".data := by
  refine ⟨by decide, by decide, by decide⟩

/-- C2 amended: removal deletes exactly the subtrees rooted at nodes the
hidden-style test accepts (so text under any non-hidden chain of
ancestors contributes to the normalised text); the part_000 test matches
`display:none` and `visibility:hidden` as exact trimmed, lowercased
property:value tokens — `opacity:0` is not hidden there, and near-matches
such as `display:nnone` or `xdisplay:none` are never hidden; the 60%slop
test instead matches the three markers as substrings of the
whitespace-stripped style, exempting any style containing `nnone`. -/
theorem hiddenStyle_amended_spec :
    (∀ (hidden : List Char → Bool) (ns : DomForest),
      textTrees (pruneTrees hidden ns) = visibleTrees hidden ns) ∧
    isHiddenV1 "display:none".data = true ∧
    isHiddenV1 " DISPLAY : None ; color:red".data = true ∧
    isHiddenV1 "visibility:hidden".data = true ∧
    isHiddenV1 "display:nnone".data = false ∧
    isHiddenV1 "xdisplay:none".data = false ∧
    isHiddenV1 "display:none2".data = false ∧
    isHiddenV1 "opacity:0".data = false ∧
    isHiddenV2 "opacity:0".data = true ∧
    isHiddenV2 "visibility : hidden".data = true ∧
    isHiddenV2 "display:none".data = true ∧
    isHiddenV2 "display:nnone".data = false ∧
    isHiddenV2 "display:none;x:nnone".data = false ∧
    parseVisibleTextV1
      (.cons (.elem "display:nnone".data (.cons (.text "Exactly  9".data) .nil))
        (.cons (.text " the highest ".data) .nil)) =
      "exactly 9 the highest".data := by
  refine ⟨textTrees_prune, ?_⟩
  refine ⟨by decide, by decide, by decide, by decide, by decide, by decide, by decide,
    by decide, by decide, by decide, by decide, by decide, by decide⟩

/-- C7: no exception escapes analysis — `analyze` is a total function
that returns the sentinel `(0, 0)` when the vision backend is
unavailable and when the pipeline body raises; in a batch, a failing
image (load error or raising pipeline) yields the zero result at its own
index while the result list still covers every input image. -/
theorem analyze_sentinel_spec :
    (∀ (body : Except String (ℕ × ℕ)), analyze false body = (0, 0)) ∧
    (∀ (e : String), analyze true (.error e) = (0, 0)) ∧
    (∀ (p : ℕ × ℕ), analyze true (.ok p) = p) ∧
    (∀ (ready : Bool) (loads : List LoadOutcome),
      (analyzeAllImages ready loads).length = loads.length ∧
      (∀ i o, loads.get? i = some o → loadFails o = true →
        (analyzeAllImages ready loads).get? i = some ⟨i, 0, 0⟩) ∧
      (ready = false →
        ∀ r ∈ analyzeAllImages ready loads, r.empty = 0 ∧ r.total = 0)) := by
  refine ⟨fun body => rfl, fun e => rfl, fun p => rfl, ?_⟩
  intro ready loads
  refine ⟨analyzeAllImages_length ready loads, ?_, ?_⟩
  · intro i o hget hfail
    rw [analyzeAllImages_get? ready loads i, hget, Option.map_some']
    congr 1
    cases o with
    | error e => rfl
    | ok body =>
      cases body with
      | ok p => exact absurd hfail (by simp [loadFails])
      | error e =>
        cases ready with
        | false => rfl
        | true => rfl
  · intro hready r hr
    subst hready
    simp only [analyzeAllImages, List.mem_map] at hr
    obtain ⟨p, _, hp⟩ := hr
    subst hp
    cases ho : p.2 with
    | error e => simp [resolveImage, ho]
    | ok body => simp [resolveImage, ho, analyze]

/-- Witness for C7: a concrete three-image batch in which the middle
image fails to load and the last one's pipeline raises. -/
theorem analyze_sentinel_spec_witness :
    (analyzeAllImages true
      [Except.ok (Except.ok (2, 3)), Except.error (), Except.ok (Except.error "cv")]).get? 1 =
      some ⟨1, 0, 0⟩ ∧
    (analyzeAllImages true
      [Except.ok (Except.ok (2, 3)), Except.error (), Except.ok (Except.error "cv")]).get? 2 =
      some ⟨2, 0, 0⟩ := by
  constructor
  · exact (analyze_sentinel_spec.2.2.2 true _).2.1 1 (Except.error ()) rfl rfl
  · exact (analyze_sentinel_spec.2.2.2 true _).2.1 2 (Except.ok (Except.error "cv")) rfl rfl

/-- C8: the per-image result list has exactly one entry per input image
and is ordered by original input index; assembling the per-image
completion events in any completion order whatsoever produces that same
positional list. -/
theorem batch_order_spec (ready : Bool) (loads : List LoadOutcome)
    (events : List Completion)
    (hperm : List.Perm events (completionsOf (analyzeAllImages ready loads))) :
    assemble loads.length events = (analyzeAllImages ready loads).map some ∧
    (analyzeAllImages ready loads).length = loads.length ∧
    (analyzeAllImages ready loads).map (fun r => r.index) = List.range loads.length := by
  have hlen := analyzeAllImages_length ready loads
  have hmap := analyzeAllImages_map_index ready loads
  refine ⟨?_, hlen, hmap⟩
  have hfst : (completionsOf (analyzeAllImages ready loads)).map Prod.fst =
      List.range loads.length := by
    simp only [completionsOf, List.map_map]
    exact hmap
  have hnd : (events.map Prod.fst).Nodup := by
    have hnd₀ : ((completionsOf (analyzeAllImages ready loads)).map Prod.fst).Nodup := by
      rw [hfst]
      exact List.nodup_range _
    exact ((hperm.map Prod.fst).nodup_iff).mpr hnd₀
  unfold assemble
  rw [foldl_applyCompletion_perm hperm hnd (List.replicate loads.length none)]
  have hidx : ∀ j (h : j < (analyzeAllImages ready loads).length),
      ((analyzeAllImages ready loads).get ⟨j, h⟩).index = 0 + j := by
    intro j h
    have h1 : ((analyzeAllImages ready loads).map (fun r => r.index)).get?  j =
        some ((analyzeAllImages ready loads).get ⟨j, h⟩).index := by
      rw [List.get?_map, List.get?_eq_get h, Option.map_some']
    rw [hmap] at h1
    have h2 : (List.range loads.length).get? j = some j := by
      rw [List.get?_range]
      rw [hlen] at h
      exact h
    rw [h2] at h1
    have := (Option.some.injEq _ _).mp h1
    omega
  have hfill := foldl_fill (analyzeAllImages ready loads) 0
    (List.replicate loads.length none) (by simp [hlen]) hidx
  rw [hfill]
  simp

/-- Witness for C8: two completion events arriving in reversed order
still assemble to the in-index-order result list. -/
theorem batch_order_spec_witness :
    assemble 2 [(1, (0, 0)), (0, (2, 3))] =
      [some ⟨0, 2, 3⟩, some ⟨1, 0, 0⟩] := by
  have h := batch_order_spec true [Except.ok (Except.ok (2, 3)), Except.error ()]
    [(1, (0, 0)), (0, (2, 3))] (by decide)
  exact h.1

/-- The head of a stable sort is the list's first minimum, split into
its strict-prefix and non-better-suffix parts. -/
theorem stableSort_head_split (lt : ImgResult → ImgResult → Bool)
    (htr : LtTrans lt) (hng : LtNegTrans lt) (hir : LtIrrefl lt)
    (results : List ImgResult) (w : ImgResult) (ws : List ImgResult)
    (hs : stableSort lt results = w :: ws) :
    ∃ l₁ l₂, results = l₁ ++ w :: l₂ ∧ (∀ x ∈ l₁, lt w x = true) ∧
      (∀ x ∈ results, lt x w = false) := by
  have hhead : firstMinBy lt results = some w := by
    rw [← stableSort_head, hs]
    rfl
  exact firstMinBy_split lt htr hng hir results w hhead

/-- C5: for every result list, `predictMaximum` never reports an
approximate decision; if no result has a positive metric the decision is
empty; and whenever some result has a positive metric, the selected
result has the largest metric, with metric ties holding the fewest total
shapes. -/
theorem predictMaximum_spec (results : List ImgResult) :
    (predictMaximum results).2 = false ∧
    ((∀ r ∈ results, r.empty = 0) → (predictMaximum results).1 = none) ∧
    (∀ r₀ ∈ results, 0 < r₀.empty →
      ∃ w ∈ results, predictMaximum results = (some w.index, false) ∧
        (∀ r ∈ results, r.empty ≤ w.empty) ∧
        (∀ r ∈ results, r.empty = w.empty → w.total ≤ r.total)) := by
  refine ⟨?_, ?_, ?_⟩
  · cases hs : stableSort maxLt results with
    | nil => simp [predictMaximum, hs]
    | cons w ws => simp [predictMaximum, hs]
  · intro hzero
    cases hs : stableSort maxLt results with
    | nil => simp [predictMaximum, hs]
    | cons w ws =>
      have hwmem : w ∈ results := by
        have : w ∈ stableSort maxLt results := by rw [hs]; exact List.mem_cons_self w ws
        exact ((stableSort_perm maxLt results).mem_iff).mp this
      have hw0 : w.empty = 0 := hzero w hwmem
      simp [predictMaximum, hs, hw0]
  · intro r₀ hr₀ hpos
    cases hs : stableSort maxLt results with
    | nil =>
      exfalso
      have := (stableSort_perm maxLt results).length_eq
      rw [hs] at this
      have : results = [] := List.length_eq_zero.mp this.symm
      subst this
      exact absurd hr₀ (by simp)
    | cons w ws =>
      obtain ⟨l₁, l₂, hsp, hstrict, hmin⟩ :=
        stableSort_head_split maxLt maxLt_trans maxLt_negTrans maxLt_irrefl
          results w ws hs
      have hwmem : w ∈ results := by
        rw [hsp]
        exact List.mem_append_right l₁ (List.mem_cons_self w l₂)
      have hmax : ∀ r ∈ results, r.empty ≤ w.empty := by
        intro r hr
        have h1 := hmin r hr
        rw [← Bool.not_eq_true, maxLt_iff] at h1
        omega
      have htie : ∀ r ∈ results, r.empty = w.empty → w.total ≤ r.total := by
        intro r hr heq
        have h1 := hmin r hr
        rw [← Bool.not_eq_true, maxLt_iff] at h1
        omega
      have hwpos : 0 < w.empty := lt_of_lt_of_le hpos (hmax r₀ hr₀)
      refine ⟨w, hwmem, ?_, hmax, htie⟩
      simp [predictMaximum, hs, hwpos]

/-- Witness for C5: metrics `[0, 3, 1, 2]` select index 1, and the
all-zero batch `[0, 0, 0]` yields no decision. -/
theorem predictMaximum_spec_witness :
    (∃ w ∈ [(⟨0, 0, 4⟩ : ImgResult), ⟨1, 3, 4⟩, ⟨2, 1, 4⟩, ⟨3, 2, 4⟩],
      predictMaximum [⟨0, 0, 4⟩, ⟨1, 3, 4⟩, ⟨2, 1, 4⟩, ⟨3, 2, 4⟩] = (some w.index, false) ∧
        (∀ r ∈ [(⟨0, 0, 4⟩ : ImgResult), ⟨1, 3, 4⟩, ⟨2, 1, 4⟩, ⟨3, 2, 4⟩],
          r.empty ≤ w.empty) ∧
        (∀ r ∈ [(⟨0, 0, 4⟩ : ImgResult), ⟨1, 3, 4⟩, ⟨2, 1, 4⟩, ⟨3, 2, 4⟩],
          r.empty = w.empty → w.total ≤ r.total)) ∧
    (predictMaximum [⟨0, 0, 1⟩, ⟨1, 0, 2⟩, ⟨2, 0, 3⟩]).1 = none := by
  constructor
  · exact (predictMaximum_spec [⟨0, 0, 4⟩, ⟨1, 3, 4⟩, ⟨2, 1, 4⟩, ⟨3, 2, 4⟩]).2.2
      ⟨1, 3, 4⟩ (by decide) (by decide)
  · exact (predictMaximum_spec [⟨0, 0, 1⟩, ⟨1, 0, 2⟩, ⟨2, 0, 3⟩]).2.1 (by decide)

/-- C4: for every `EXACT` rule with target `t` over an index-ordered
result list: an exact metric match selects the first (lowest-index) such
result non-approximately; otherwise the result minimising the absolute
metric difference is selected approximately, ties won by the lowest
index; the empty list yields no selection. -/
theorem predictExact_spec (results : List ImgResult) (target : ℕ)
    (hord : results.Pairwise fun a b => a.index < b.index) :
    (results = [] → predictExact results target = (none, true)) ∧
    (∀ r₀ ∈ results, r₀.empty = target →
      ∃ w ∈ results, w.empty = target ∧
        predictExact results target = (some w.index, false) ∧
        ∀ r ∈ results, r.empty = target → w.index ≤ r.index) ∧
    ((∀ r ∈ results, r.empty ≠ target) → results ≠ [] →
      ∃ w ∈ results, predictExact results target = (some w.index, true) ∧
        (∀ r ∈ results, Nat.dist w.empty target ≤ Nat.dist r.empty target) ∧
        (∀ r ∈ results, Nat.dist r.empty target = Nat.dist w.empty target →
          w.index ≤ r.index)) := by
  refine ⟨?_, ?_, ?_⟩
  · intro h
    subst h
    rfl
  · intro r₀ hr₀ hexact
    cases hfind : results.find? fun r => r.empty == target with
    | none =>
      exfalso
      have := List.find?_eq_none.mp hfind r₀ hr₀
      simp [hexact] at this
    | some w =>
      obtain ⟨hpw, l₁, l₂, hsp, hfalse⟩ := find?_split _ results w hfind
      have hwt : w.empty = target := by simpa using hpw
      have hwmem : w ∈ results := by
        rw [hsp]
        exact List.mem_append_right l₁ (List.mem_cons_self w l₂)
      refine ⟨w, hwmem, hwt, by simp [predictExact, hfind], ?_⟩
      intro r hr hrt
      have hord' := hsp ▸ hord
      obtain ⟨_, h2, _⟩ := List.pairwise_append.mp hord'
      obtain ⟨hwl₂, _⟩ := List.pairwise_cons.mp h2
      rw [hsp] at hr
      rcases List.mem_append.mp hr with hr1 | hr2
      · exfalso
        have := hfalse r hr1
        simp [hrt] at this
      · rcases List.mem_cons.mp hr2 with hr2 | hr2
        · subst hr2
          exact le_refl _
        · exact le_of_lt (hwl₂ r hr2)
  · intro hnone hne
    have hfind : results.find? (fun r => r.empty == target) = none := by
      rw [List.find?_eq_none]
      intro r hr
      simp only [beq_iff_eq]
      exact hnone r hr
    cases hs : stableSort (exactLt target) results with
    | nil =>
      exfalso
      have hlen := (stableSort_perm (exactLt target) results).length_eq
      rw [hs] at hlen
      exact hne (List.length_eq_zero.mp hlen.symm)
    | cons w ws =>
      obtain ⟨l₁, l₂, hsp, hstrict, hmin⟩ :=
        stableSort_head_split (exactLt target) (exactLt_trans target)
          (exactLt_negTrans target) (exactLt_irrefl target) results w ws hs
      have hwmem : w ∈ results := by
        rw [hsp]
        exact List.mem_append_right l₁ (List.mem_cons_self w l₂)
      have hbest : ∀ r ∈ results, Nat.dist w.empty target ≤ Nat.dist r.empty target := by
        intro r hr
        have h1 := hmin r hr
        simp only [exactLt, decide_eq_false_iff_not, not_lt] at h1
        exact h1
      have hties : ∀ r ∈ results, Nat.dist r.empty target = Nat.dist w.empty target →
          w.index ≤ r.index := by
        intro r hr heq
        have hord' := hsp ▸ hord
        obtain ⟨_, h2, _⟩ := List.pairwise_append.mp hord'
        obtain ⟨hwl₂, _⟩ := List.pairwise_cons.mp h2
        rw [hsp] at hr
        rcases List.mem_append.mp hr with hr1 | hr2
        · exfalso
          have hst := hstrict r hr1
          simp only [exactLt, decide_eq_true_eq] at hst
          omega
        · rcases List.mem_cons.mp hr2 with hr2 | hr2
          · subst hr2
            exact le_refl _
          · exact le_of_lt (hwl₂ r hr2)
      exact ⟨w, hwmem, by simp [predictExact, hfind, hs], hbest, hties⟩

/-- Witness for C4: metrics `[0, 3, 1, 2]` with target 5 select index 1
approximately (the spec's own fallback test vector). -/
theorem predictExact_spec_witness :
    ∃ w ∈ [(⟨0, 0, 4⟩ : ImgResult), ⟨1, 3, 4⟩, ⟨2, 1, 4⟩, ⟨3, 2, 4⟩],
      predictExact [⟨0, 0, 4⟩, ⟨1, 3, 4⟩, ⟨2, 1, 4⟩, ⟨3, 2, 4⟩] 5 = (some w.index, true) ∧
      (∀ r ∈ [(⟨0, 0, 4⟩ : ImgResult), ⟨1, 3, 4⟩, ⟨2, 1, 4⟩, ⟨3, 2, 4⟩],
        Nat.dist w.empty 5 ≤ Nat.dist r.empty 5) ∧
      (∀ r ∈ [(⟨0, 0, 4⟩ : ImgResult), ⟨1, 3, 4⟩, ⟨2, 1, 4⟩, ⟨3, 2, 4⟩],
        Nat.dist r.empty 5 = Nat.dist w.empty 5 → w.index ≤ r.index) :=
  (predictExact_spec [⟨0, 0, 4⟩, ⟨1, 3, 4⟩, ⟨2, 1, 4⟩, ⟨3, 2, 4⟩] 5
    (by decide)).2.2 (by decide) (by decide)

/-- C6 counterexample: the claimed angle-bracket markup fallback is
false for the cited `LogicParser.parse` of src/unnamed/part_000 — when
the text regex `exactly\s*(\d+)` has no match, its target stays 0 even
though the raw markup carries a bare bracketed integer; only the 60%slop
variant falls back to the markup. -/
theorem extractTarget_v1_cex :
    scanFirst tryExactlyAt "pick exactly dots".data = none ∧
    extractTargetV1 "pick exactly dots".data = 0 ∧
    extractTarget "pick exactly dots".data "<b> 7 </b>".data = 7 := by
  refine ⟨by decide, by decide, by decide⟩

/-- C6 amended: for an `EXACT` instruction, the target is the integer
captured by the regex `exactly\s*(\d+)` at its first matching position
of the normalised text (`exactly`, optional whitespace, then the first
digit run); when the text has no such match, the 60%slop parser falls
back to the first bare integer between angle-bracket tags in the raw
markup (`>\s*(\d+)\s*<`) and stays 0 if that fails too, while the
part_000 parser has no markup fallback and its target stays 0. -/
theorem extractTarget_spec (text html : List Char) :
    (∀ n, scanFirst tryExactlyAt text = some n →
      extractTarget text html = n ∧
      ∃ i, i ≤ text.length ∧ tryExactlyAt (text.drop i) = some n ∧
        ∀ j, j < i → tryExactlyAt (text.drop j) = none) ∧
    (scanFirst tryExactlyAt text = none →
      (∀ i, i ≤ text.length → tryExactlyAt (text.drop i) = none) ∧
      (∀ n, scanFirst tryAngleAt html = some n →
        extractTarget text html = n ∧
        ∃ i, i ≤ html.length ∧ tryAngleAt (html.drop i) = some n ∧
          ∀ j, j < i → tryAngleAt (html.drop j) = none) ∧
      (scanFirst tryAngleAt html = none → extractTarget text html = 0)) ∧
    (∀ n, scanFirst tryExactlyAt text = some n → extractTargetV1 text = n) ∧
    (scanFirst tryExactlyAt text = none → extractTargetV1 text = 0) := by
  refine ⟨?_, ?_, ?_, ?_⟩
  · intro n hscan
    refine ⟨?_, ?_⟩
    · simp [extractTarget, hscan]
    · obtain ⟨i, hi, hf, hnone⟩ := (scanFirst_some_iff tryExactlyAt text n).mp hscan
      exact ⟨i, hi, hf, hnone⟩
  · intro hnone
    refine ⟨(scanFirst_none_iff tryExactlyAt text).mp hnone, ?_, ?_⟩
    · intro n hscan
      refine ⟨by simp [extractTarget, hnone, hscan], ?_⟩
      obtain ⟨i, hi, hf, hn⟩ := (scanFirst_some_iff tryAngleAt html n).mp hscan
      exact ⟨i, hi, hf, hn⟩
    · intro hscan
      simp [extractTarget, hnone, hscan]
  · intro n hscan
    simp [extractTargetV1, hscan]
  · intro hnone
    simp [extractTargetV1, hnone]

/-- Witness for C6 (amended): `"pick exactly 12 boxes"` yields target 12
from the text in both variants; on a text without a matching
`exactly`-number, the 60%slop variant falls back to the bracketed markup
integer while the part_000 variant stays at 0. -/
theorem extractTarget_spec_witness :
    extractTarget "pick exactly 12 boxes".data "".data = 12 ∧
    extractTargetV1 "pick exactly 12 boxes".data = 12 ∧
    extractTarget "pick exactly dots".data "<b> 7 </b>".data = 7 ∧
    extractTargetV1 "pick exactly dots".data = 0 := by
  refine ⟨?_, ?_, ?_, ?_⟩
  · exact ((extractTarget_spec "pick exactly 12 boxes".data "".data).1 12 (by decide)).1
  · exact (extractTarget_spec "pick exactly 12 boxes".data "".data).2.2.1 12 (by decide)
  · exact (((extractTarget_spec "pick exactly dots".data "<b> 7 </b>".data).2.1
      (by decide)).2.1 7 (by decide)).1
  · exact (extractTarget_spec "pick exactly dots".data "<b> 7 </b>".data).2.2.2
      (by decide)

/-- C10: duplicate suppression always keeps the largest-area box: the
head of the area-descending sort passes the filter, so a nonempty input
yields a nonempty output whose head is a maximum-area box; the output is
a subsequence of the area-sorted input and never longer than the
input. -/
theorem applyNMS_nonempty_spec (boxes : List Box) (oNum oDen : ℤ)
    (hne : boxes ≠ []) :
    applyNMS boxes oNum oDen ≠ [] ∧
    (applyNMS boxes oNum oDen).head? = (sortAreaDesc boxes).head? ∧
    (∃ m, (applyNMS boxes oNum oDen).head? = some m ∧
      ∀ b ∈ boxes, b.area ≤ m.area) ∧
    List.Sublist (applyNMS boxes oNum oDen) (sortAreaDesc boxes) ∧
    (applyNMS boxes oNum oDen).length ≤ boxes.length := by
  have hperm := stableSort_perm areaLt boxes
  cases hs : sortAreaDesc boxes with
  | nil =>
    exfalso
    have hlen : (sortAreaDesc boxes).length = boxes.length := hperm.length_eq
    rw [hs] at hlen
    exact hne (List.length_eq_zero.mp hlen.symm)
  | cons m rest =>
    have hhead : applyNMS boxes oNum oDen =
        m :: (((rest.enumFrom 1).filter fun p =>
          !(((m :: rest).take p.1).any fun k => suppresses k p.2 oNum oDen)).map
            Prod.snd) := by
      show (((sortAreaDesc boxes).enum.filter _).map _) = _
      rw [hs]
      rfl
    have hsub : List.Sublist (applyNMS boxes oNum oDen) (m :: rest) := by
      have h0 : List.Sublist (applyNMS boxes oNum oDen) (sortAreaDesc boxes) :=
        enumFrom_filter_map_snd_sublist _ (sortAreaDesc boxes) 0
      rw [hs] at h0
      exact h0
    have hmax : ∀ b ∈ boxes, b.area ≤ m.area := by
      intro b hb
      have hbs : b ∈ sortAreaDesc boxes := hperm.symm.subset hb
      rw [hs] at hbs
      rcases List.mem_cons.mp hbs with hbs | hbs
      · exact hbs ▸ le_refl _
      · have hpw := stableSort_pairwise areaLt areaLt_trans areaLt_negTrans
          areaLt_irrefl boxes
        rw [show stableSort areaLt boxes = sortAreaDesc boxes from rfl, hs] at hpw
        obtain ⟨hm, _⟩ := List.pairwise_cons.mp hpw
        have h1 := hm b hbs
        simp only [areaLt, decide_eq_false_iff_not, not_lt] at h1
        exact h1
    have hlenS : (m :: rest).length = boxes.length := by
      rw [← hs]
      exact hperm.length_eq
    refine ⟨by rw [hhead]; simp, by rw [hhead]; rfl, ⟨m, by rw [hhead]; rfl, hmax⟩,
      hsub, ?_⟩
    calc (applyNMS boxes oNum oDen).length ≤ (m :: rest).length := hsub.length_le
      _ = boxes.length := hlenS

/-- Witness for C10 at a concrete overlapping box triple. -/
theorem applyNMS_nonempty_spec_witness :
    applyNMS [⟨0, 0, 10, 100⟩, ⟨5, 0, 10, 50⟩, ⟨10, 0, 10, 25⟩] 3 5 ≠ [] ∧
    (applyNMS [⟨0, 0, 10, 100⟩, ⟨5, 0, 10, 50⟩, ⟨10, 0, 10, 25⟩] 3 5).head? =
      (sortAreaDesc [⟨0, 0, 10, 100⟩, ⟨5, 0, 10, 50⟩, ⟨10, 0, 10, 25⟩]).head? ∧
    (∃ m, (applyNMS [⟨0, 0, 10, 100⟩, ⟨5, 0, 10, 50⟩, ⟨10, 0, 10, 25⟩] 3 5).head? =
        some m ∧
      ∀ b ∈ [(⟨0, 0, 10, 100⟩ : Box), ⟨5, 0, 10, 50⟩, ⟨10, 0, 10, 25⟩],
        b.area ≤ m.area) ∧
    List.Sublist (applyNMS [⟨0, 0, 10, 100⟩, ⟨5, 0, 10, 50⟩, ⟨10, 0, 10, 25⟩] 3 5)
      (sortAreaDesc [⟨0, 0, 10, 100⟩, ⟨5, 0, 10, 50⟩, ⟨10, 0, 10, 25⟩]) ∧
    (applyNMS [⟨0, 0, 10, 100⟩, ⟨5, 0, 10, 50⟩, ⟨10, 0, 10, 25⟩] 3 5).length ≤
      ([(⟨0, 0, 10, 100⟩ : Box), ⟨5, 0, 10, 50⟩, ⟨10, 0, 10, 25⟩]).length :=
  applyNMS_nonempty_spec [⟨0, 0, 10, 100⟩, ⟨5, 0, 10, 50⟩, ⟨10, 0, 10, 25⟩] 3 5
    (by decide)

/-- C1 counterexample: the claim keeps a shape exactly when every
*already-kept* shape lies beyond its suppression bound.  With boxes
A (centre 0, area 100), B (centre 5, area 50) and C (centre 10,
area 25), all of width 10 and overlap factor 3/5 (bound 6): B is
suppressed by A, and C — farther than the bound from every *kept* box
(only A, at distance 10 > 6) — is nevertheless discarded by the source,
because the discarded B at distance 5 < 6 still suppresses it.  The
greedy already-kept reading would keep `[A, C]`. -/
theorem applyNMS_kept_only_cex :
    applyNMS [⟨0, 0, 10, 100⟩, ⟨5, 0, 10, 50⟩, ⟨10, 0, 10, 25⟩] 3 5 =
      [⟨0, 0, 10, 100⟩] ∧
    (∀ k ∈ applyNMS [⟨0, 0, 10, 100⟩, ⟨5, 0, 10, 50⟩, ⟨10, 0, 10, 25⟩] 3 5,
      suppresses k ⟨10, 0, 10, 25⟩ 3 5 = false) ∧
    (⟨10, 0, 10, 25⟩ : Box) ∈ [(⟨0, 0, 10, 100⟩ : Box), ⟨5, 0, 10, 50⟩, ⟨10, 0, 10, 25⟩] ∧
    (⟨10, 0, 10, 25⟩ : Box) ∉
      applyNMS [⟨0, 0, 10, 100⟩, ⟨5, 0, 10, 50⟩, ⟨10, 0, 10, 25⟩] 3 5 ∧
    greedyKeptNMS 3 5 [⟨0, 0, 10, 100⟩, ⟨5, 0, 10, 50⟩, ⟨10, 0, 10, 25⟩] =
      [⟨0, 0, 10, 100⟩, ⟨10, 0, 10, 25⟩] := by
  refine ⟨by decide, by decide, by decide, by decide, by decide⟩

/-- C1 amended: duplicate suppression sorts by area descending (a
stable sort: ties in area preserve discovery order, witnessed on
position-tagged inputs) and keeps a shape exactly when every shape at an
*earlier position of the sorted order — kept or discarded —* has
centroid distance at least (not strictly greater than) that shape's
extent times the overlap factor. -/
theorem applyNMS_amended_spec (boxes : List Box) (oNum oDen : ℤ) :
    List.Perm (sortAreaDesc boxes) boxes ∧
    (sortAreaDesc boxes).Pairwise (fun a b => b.area ≤ a.area) ∧
    applyNMS boxes oNum oDen =
      ((sortAreaDesc boxes).enum.filter fun p =>
        ((sortAreaDesc boxes).take p.1).all fun k => !suppresses k p.2 oNum oDen).map
        Prod.snd ∧
    (∀ i b, (sortAreaDesc boxes).get? i = some b →
      ((((sortAreaDesc boxes).take i).all fun k => !suppresses k b oNum oDen) = true ↔
        ∀ j a, j < i → (sortAreaDesc boxes).get? j = some a →
          suppresses a b oNum oDen = false)) ∧
    (∀ tagged : List (ℕ × Box), (tagged.map Prod.fst).Pairwise (· < ·) →
      (stableSort (fun a b => areaLt a.2 b.2) tagged).map Prod.snd =
        sortAreaDesc (tagged.map Prod.snd) ∧
      (stableSort (fun a b => areaLt a.2 b.2) tagged).Pairwise fun a b =>
        areaLt a.2 b.2 = true ∨
          (areaLt a.2 b.2 = false ∧ areaLt b.2 a.2 = false ∧ a.1 < b.1)) := by
  refine ⟨stableSort_perm areaLt boxes, ?_, ?_, ?_, ?_⟩
  · have hpw := stableSort_pairwise areaLt areaLt_trans areaLt_negTrans
      areaLt_irrefl boxes
    refine List.Pairwise.imp ?_ hpw
    intro a b h
    simp only [areaLt, decide_eq_false_iff_not, not_lt] at h
    exact h
  · show (((sortAreaDesc boxes).enum.filter _).map Prod.snd) = _
    congr 1
    apply List.filter_congr
    intro p _
    cases hq : (((sortAreaDesc boxes).take p.1).any fun k => suppresses k p.2 oNum oDen) with
    | false =>
      have : (((sortAreaDesc boxes).take p.1).all fun k => !suppresses k p.2 oNum oDen) =
          true := by
        rw [List.all_eq_true]
        intro k hk
        rw [List.any_eq_false] at hq
        have hqk := hq k hk
        rw [Bool.not_eq_true] at hqk
        simp [hqk]
      rw [this]
      rfl
    | true =>
      have : (((sortAreaDesc boxes).take p.1).all fun k => !suppresses k p.2 oNum oDen) =
          false := by
        rw [List.any_eq_true] at hq
        obtain ⟨k, hk, hsk⟩ := hq
        rw [List.all_eq_false]
        exact ⟨k, hk, by simp [hsk]⟩
      rw [this]
      rfl
  · intro i b _
    constructor
    · intro hall j a hj hget
      rw [List.all_eq_true] at hall
      have hmem : a ∈ (sortAreaDesc boxes).take i :=
        (mem_take_get? (sortAreaDesc boxes) i a).mpr ⟨j, hj, hget⟩
      have := hall a hmem
      simpa using this
    · intro hforall
      rw [List.all_eq_true]
      intro k hk
      obtain ⟨j, hj, hget⟩ := (mem_take_get? (sortAreaDesc boxes) i k).mp hk
      have := hforall j k hj hget
      simpa using this
  · intro tagged htags
    exact ⟨stableSort_map_snd areaLt tagged,
      stableSort_stable areaLt areaLt_trans areaLt_negTrans tagged htags⟩

/-- Witness for C1 (amended): at the counterexample boxes the keep test
of position 2 fails precisely because position 1 — the discarded box B —
is within its bound, and the tagged two-box tie keeps discovery order. -/
theorem applyNMS_amended_spec_witness :
    (((sortAreaDesc [⟨0, 0, 10, 100⟩, ⟨5, 0, 10, 50⟩, ⟨10, 0, 10, 25⟩]).take 2).all
        fun k => !suppresses k ⟨10, 0, 10, 25⟩ 3 5) = false ∧
    (stableSort (fun a b => areaLt a.2 b.2)
        [(0, (⟨0, 0, 3, 7⟩ : Box)), (1, ⟨9, 9, 3, 7⟩)]).map Prod.snd =
      sortAreaDesc [⟨0, 0, 3, 7⟩, ⟨9, 9, 3, 7⟩] := by
  constructor
  · have h := (applyNMS_amended_spec
      [⟨0, 0, 10, 100⟩, ⟨5, 0, 10, 50⟩, ⟨10, 0, 10, 25⟩] 3 5).2.2.2.1 2
      ⟨10, 0, 10, 25⟩ (by decide)
    cases hq : (((sortAreaDesc [⟨0, 0, 10, 100⟩, ⟨5, 0, 10, 50⟩, ⟨10, 0, 10, 25⟩]).take 2).all
        fun k => !suppresses k ⟨10, 0, 10, 25⟩ 3 5) with
    | false => rfl
    | true =>
      exfalso
      have h1 := (h.mp hq) 1 ⟨5, 0, 10, 50⟩ (by omega) (by decide)
      exact absurd h1 (by decide)
  · exact ((applyNMS_amended_spec [⟨0, 0, 10, 100⟩, ⟨5, 0, 10, 50⟩, ⟨10, 0, 10, 25⟩] 3
      5).2.2.2.2 [(0, ⟨0, 0, 3, 7⟩), (1, ⟨9, 9, 3, 7⟩)] (by decide)).1

end CaptchaCore
